import Mathlib

/-!
Verification of the lexical identity & cross-reference pipeline of the
Wortschatzspiel repository.  The Python tools under `tools/` are shallowly
embedded below: every pure computation is translated into an executable Lean
definition; file-system side effects (reading and writing YAML files) are
represented by explicit data passed in and by flags/lists recorded in the
result (which files would be rewritten, whether the index document would be
written).  Python dictionaries are modelled as insertion-ordered association
lists, matching CPython dict semantics (updating an existing key keeps its
position, a fresh key is appended at the end); `set` objects are modelled as
duplicate-free lists, since only membership is ever used.
-/

namespace Wortschatz

/-! ### Generic helpers: Python-dict-like association lists -/

/-- Lookup in an insertion-ordered association list (Python `d.get(k)`). -/
def alGet? {κ β : Type} [DecidableEq κ] : List (κ × β) → κ → Option β
  | [], _ => none
  | (k0, v0) :: rest, k => if k0 = k then some v0 else alGet? rest k

/-- Python `k in d`. -/
def alHas {κ β : Type} [DecidableEq κ] (m : List (κ × β)) (k : κ) : Bool :=
  (alGet? m k).isSome

/-- Python `d[k] = v`: replace in place if the key is present (its position is
kept), otherwise append the new pair at the end. -/
def alInsert {κ β : Type} [DecidableEq κ] : List (κ × β) → κ → β → List (κ × β)
  | [], k, v => [(k, v)]
  | (k0, v0) :: rest, k, v =>
    if k0 = k then (k0, v) :: rest else (k0, v0) :: alInsert rest k v

/-- Apply `f` to the value stored at `k`, in place (used for the in-place
mutation of an already-stored table in the deduplicator). -/
def alModify {κ β : Type} [DecidableEq κ] : List (κ × β) → κ → (β → β) → List (κ × β)
  | [], _, _ => []
  | (k0, v0) :: rest, k, f =>
    if k0 = k then (k0, f v0) :: rest else (k0, v0) :: alModify rest k f

/-! ### Generic helpers: strings

To keep every computation kernel-reducible we work on the character lists
underlying `String` and avoid the iterator-based core string functions. -/

/-- Code-point lexicographic `≤` on character lists (Python string order). -/
def listLexLe : List Char → List Char → Bool
  | [], _ => true
  | _ :: _, [] => false
  | c :: cs, d :: ds =>
    if c.val < d.val then true
    else if d.val < c.val then false
    else listLexLe cs ds

/-- Python `a <= b` on strings. -/
def strLe (a b : String) : Bool := listLexLe a.data b.data

/-- Lexicographic `≤` on pairs of strings (Python tuple comparison). -/
def strPairLe (a b : String × String) : Bool :=
  if a.1 = b.1 then strLe a.2 b.2 else strLe a.1 b.1

/-- Insert into a sorted list, before the first element that `x` may precede;
together with `sortBy` this is a stable insertion sort (Python's `sorted` is
stable; ties only matter for fully identical sort keys here). -/
def insertSorted {α : Type} (le : α → α → Bool) (x : α) : List α → List α
  | [] => [x]
  | y :: ys => if le x y then x :: y :: ys else y :: insertSorted le x ys

/-- Stable sort by a boolean `≤` (models Python `sorted`). -/
def sortBy {α : Type} (le : α → α → Bool) : List α → List α
  | [] => []
  | x :: xs => insertSorted le x (sortBy le xs)

/-- Python `s.strip()` (on the underlying character list). -/
def trimChars (l : List Char) : List Char :=
  ((l.dropWhile Char.isWhitespace).reverse.dropWhile Char.isWhitespace).reverse

/-- Python `s.strip()`. -/
def strTrim (s : String) : String := String.mk (trimChars s.data)

/-- Python `s.lower()` (ASCII case mapping; the German special characters the
tools care about are translated away before case mapping matters). -/
def strLower (s : String) : String := String.mk (s.data.map Char.toLower)

/-- Python `s.endswith(suf)`. -/
def strEndsWith (s suf : String) : Bool := suf.data.isSuffixOf s.data

/-- Splitting on whitespace runs, dropping empty pieces: Python `s.split()`.
`acc` holds the (reversed) characters of the word currently being read. -/
def splitWSAux : List Char → List Char → List String
  | [], acc => if acc = [] then [] else [String.mk acc.reverse]
  | c :: cs, acc =>
    if c.isWhitespace then
      if acc = [] then splitWSAux cs []
      else String.mk acc.reverse :: splitWSAux cs []
    else splitWSAux cs (c :: acc)

/-- Python `s.split()`. -/
def wordsOf (s : String) : List String := splitWSAux s.data []

/-- Python `" ".join(ws)`. -/
def joinSpace : List String → String
  | [] => ""
  | [w] => w
  | w :: ws => w ++ " " ++ joinSpace ws

/-- Decimal digit character. -/
def digitChar : Nat → Char
  | 0 => '0' | 1 => '1' | 2 => '2' | 3 => '3' | 4 => '4'
  | 5 => '5' | 6 => '6' | 7 => '7' | 8 => '8' | _ => '9'

/-- Decimal digits of `n`, least significant first; the fuel argument (any
bound on the digit count, structurally decreasing so that the definition
kernel-reduces) is always supplied as `n + 1`. -/
def natDigitsRevAux : Nat → Nat → List Char
  | _, 0 => []
  | n, fuel + 1 =>
    if n < 10 then [digitChar n]
    else digitChar (n % 10) :: natDigitsRevAux (n / 10) fuel

/-- Python `str(n)` for a natural number. -/
def natRepr (n : Nat) : String := String.mk (natDigitsRevAux n (n + 1)).reverse

/-! ### `tools/add_lex_ids_and_build_index.py` -/

/-- `ARTICLES`: the three nominative-singular articles. -/
def ARTICLES : List String := ["der", "die", "das"]

/-- `UMLAUT_MAP` applied to one character (`str.translate`). -/
def translateChar (c : Char) : List Char :=
  if c = 'ä' then ['A', 'E']
  else if c = 'ö' then ['O', 'E']
  else if c = 'ü' then ['U', 'E']
  else if c = 'Ä' then ['A', 'E']
  else if c = 'Ö' then ['O', 'E']
  else if c = 'Ü' then ['U', 'E']
  else if c = 'ß' then ['S', 'S']
  else [c]

/-- Characters the regex `[^A-Z0-9]` does NOT match. -/
def isIdChar (c : Char) : Bool :=
  (65 ≤ c.val && c.val ≤ 90) || (48 ≤ c.val && c.val ≤ 57)

/-- `NON_ID_CHARS.sub(".", s)`: replace every maximal run of characters
outside `[A-Z0-9]` by a single dot.  The boolean records whether the scan is
inside such a run (the dot for it has been emitted already). -/
def collapseNonIdAux : List Char → Bool → List Char
  | [], _ => []
  | c :: cs, inRun =>
    if isIdChar c then c :: collapseNonIdAux cs false
    else if inRun then collapseNonIdAux cs true
    else '.' :: collapseNonIdAux cs true

/-- `NON_ID_CHARS.sub(".", s)`. -/
def collapseNonId (l : List Char) : List Char := collapseNonIdAux l false

/-- `s.strip(".")`: drop leading and trailing dots. -/
def stripDots (l : List Char) : List Char :=
  ((l.dropWhile (· = '.')).reverse.dropWhile (· = '.')).reverse

/-- `re.sub(r"\.+", ".", s)`: collapse every run of dots to a single dot;
the boolean records whether the previous character was a dot. -/
def collapseDotsAux : List Char → Bool → List Char
  | [], _ => []
  | c :: cs, inRun =>
    if c = '.' then
      if inRun then collapseDotsAux cs true else '.' :: collapseDotsAux cs true
    else c :: collapseDotsAux cs false

/-- `re.sub(r"\.+", ".", s)`. -/
def collapseDots (l : List Char) : List Char := collapseDotsAux l false

/-- `to_id_token`: canonical uppercase ID-safe token.  Order as in the source:
strip, translate umlauts, uppercase, collapse non-ID runs to `.`, strip dots,
collapse repeated dots.  (`Char.toUpper` matches Python `str.upper` on the
ASCII range; the German special characters are translated away first, and any
other character is replaced by `.` in both readings.) -/
def to_id_token (s : String) : String :=
  if s = "" then ""
  else
    let t := ((trimChars s.data).flatMap translateChar).map Char.toUpper
    String.mk (collapseDots (stripDots (collapseNonId t)))

/-- `parse_noun_text`: split an optional leading article off a noun phrase. -/
def parse_noun_text (text : String) : Option String × String :=
  let t := strTrim text
  if t = "" then (none, "")
  else
    match wordsOf t with
    | p0 :: p1 :: rest =>
      if strLower p0 ∈ ARTICLES then (some (strLower p0), joinSpace (p1 :: rest))
      else (none, t)
    | _ => (none, t)

/-- `category_prefix` (renamed: Lean reserves the trailing word). -/
def categoryPrefixOf (category : String) : String :=
  let c := strTrim (strLower category)
  if c = "noun" then "LEX.NOUN"
  else if c = "verb" then "LEX.VERB"
  else if c = "adjective" then "LEX.ADJ"
  else if c = "adverb" then "LEX.ADV"
  else if c = "time_numbers" ∨ c = "numbers_time" then "LEX.TIME"
  else "LEX." ++ (if to_id_token c = "" then "ITEM" else to_id_token c)

/-- `make_lex_id`: propose an identifier for a category and an entry text. -/
def make_lex_id (category text : String) : String :=
  let pre := categoryPrefixOf category
  if strTrim (strLower category) = "noun" then
    let art := (parse_noun_text text).1
    let core := (parse_noun_text text).2
    let coreTok := if to_id_token core = "" then "UNKNOWN" else to_id_token core
    match art with
    | some a => pre ++ "." ++ coreTok ++ "." ++ to_id_token a
    | none => pre ++ "." ++ coreTok
  else
    let tok := if to_id_token text = "" then "UNKNOWN" else to_id_token text
    pre ++ "." ++ tok

/-- The `used_counts` dict; absence of a key is encoded as count `0`
(the code never stores `0`). -/
abbrev UsedMap : Type := String → Nat

/-- `used[k] = v`. -/
def usedUpdate (u : UsedMap) (k : String) (v : Nat) : UsedMap :=
  fun s => if s = k then v else u s

/-- `ensure_unique_id`: first use of a proposed identifier returns it
unchanged; later uses return `proposed.N` with an incremented counter.
(The returned suffixed string itself is NOT recorded in the map.) -/
def ensure_unique_id (proposed : String) (used : UsedMap) : String × UsedMap :=
  if used proposed = 0 then (proposed, usedUpdate used proposed 1)
  else
    let n := used proposed + 1
    (proposed ++ "." ++ natRepr n, usedUpdate used proposed n)

/-- One record of a partition's `items` list.  Non-string `lex_id` values are
modelled as absent (`none`), matching the `isinstance(lex_id, str)` guard;
entries of `items` that are not mappings are skipped uniformly by the code
and are not modelled. -/
structure LexItem where
  text : Option String
  lex_id : Option String
deriving DecidableEq

/-- One managed lexicon partition document.  `category = none` models an
absent `category` key (the code reads it with default `""`); `items = none`
models an `items` value that is not a list (an absent `items` key defaults to
`some []`). -/
structure PartitionFile where
  fname : String
  category : Option String
  items : Option (List LexItem)
deriving DecidableEq

/-- `collect_all_existing_ids`: first-seen set (here: duplicate-free list) of
every already-assigned identifier, over all managed files; files whose
`items` is not a list are skipped. -/
def collect_all_existing_ids (files : List PartitionFile) : List String :=
  files.foldl
    (fun seen f =>
      match f.items with
      | none => seen
      | some its =>
        its.foldl
          (fun seen it =>
            match it.lex_id with
            | some s =>
              if strTrim s ≠ "" ∧ strTrim s ∉ seen then seen ++ [strTrim s] else seen
            | none => seen)
          seen)
    []

/-- A built index entry (the optional `lemma`/`article`/`sources` projections
of `build_index_entry` are not involved in any claim and are omitted). -/
structure IndexEntry where
  lex_id : String
  category : String
  text : String
deriving DecidableEq

/-- Sort key of the final index: `(category, lex_id)`. -/
def indexLe (a b : IndexEntry) : Bool :=
  if a.category = b.category then strLe a.lex_id b.lex_id else strLe a.category b.category

/-- Per-item step of `main`'s loop: keep a present identifier (stripped),
otherwise propose and uniquify one.  Returns the identifier put on the item,
the updated counter map, and whether the item was changed. -/
def processItem (category : String) (used : UsedMap) (it : LexItem) : String × UsedMap × Bool :=
  match it.lex_id with
  | some s =>
    if strTrim s ≠ "" then (strTrim s, used, false)
    else
      let pu := ensure_unique_id (make_lex_id category (it.text.getD "")) used
      (pu.1, pu.2, true)
  | none =>
    let pu := ensure_unique_id (make_lex_id category (it.text.getD "")) used
    (pu.1, pu.2, true)

/-- The items loop of `main` for one partition: index entries produced, the
final counter map, and the `file_changed` flag. -/
def processFileItems (category : String) : List LexItem → UsedMap → List IndexEntry × UsedMap × Bool
  | [], used => ([], used, false)
  | it :: rest, used =>
    let r := processItem category used it
    let tail := processFileItems category rest r.2.1
    (⟨r.1, category, it.text.getD ""⟩ :: tail.1, tail.2.1, r.2.2 || tail.2.2)

/-- Observable outcome of one run of the Index Builder: its exit code, the
partition files rewritten (in order), whether the index document was written,
and the built index items. -/
structure BuildResult where
  exit : Nat
  written : List String
  indexWritten : Bool
  indexItems : List IndexEntry
deriving DecidableEq

/-- The per-file loop of `main`: validate the partition (missing category or
non-list `items` aborts with exit code 2 — the index is not written, but
`written` keeps the files already rewritten before the abort), assign missing
identifiers, record rewritten files. -/
def buildLoop : List PartitionFile → UsedMap → List String → List IndexEntry → BuildResult
  | [], _, written, acc => ⟨0, written, true, sortBy indexLe acc⟩
  | f :: rest, used, written, acc =>
    if strTrim (f.category.getD "") = "" then ⟨2, written, false, []⟩
    else
      match f.items with
      | none => ⟨2, written, false, []⟩
      | some its =>
        let r := processFileItems (strTrim (f.category.getD "")) its used
        buildLoop rest r.2.1 (if r.2.2 then written ++ [f.fname] else written) (acc ++ r.1)

/-- `main` of the Index Builder (the file-system preconditions — lexicon
directory present, which managed files exist — are represented by the given
list of loaded partitions; an empty list exits 2 as in the source). -/
def mainBuild (files : List PartitionFile) : BuildResult :=
  if files = [] then ⟨2, [], false, []⟩
  else
    let existing := collect_all_existing_ids files
    buildLoop files (fun s => if s ∈ existing then 1 else 0) [] []

/-! ### `tools/conjugation/extract_conjugation_tables.py` -/

/-- `PRONOUN_ORDER`: canonical slot order of the output forms. -/
def PRONOUN_ORDER : List String :=
  ["ich", "du", "Sie", "er", "sie_sg", "es", "wir", "ihr", "sie_pl"]

/-- The raw pronoun alternatives of `RE_PRONOUN_PAIR`. -/
def PRONOUN_RAW : List String := ["ich", "du", "er", "sie", "es", "wir", "ihr", "Sie"]

/-- `RE_PRONOUN_PAIR.match(line.strip())`: the regex
`^(ich|du|er|sie|es|wir|ihr|Sie)\s+(.+?)\s*$` anchored on the stripped line.
Because no alternative contains whitespace and each must be followed by
`\s+`, a match happens exactly when the first whitespace-separated token is
one of the eight alternatives and a non-empty remainder follows; group 2 is
the remainder, which the callers immediately strip. -/
def matchPronounLine (line : String) : Option (String × String) :=
  let t := trimChars line.data
  let tok := String.mk (t.takeWhile (fun c => !c.isWhitespace))
  let form := String.mk (trimChars (t.dropWhile (fun c => !c.isWhitespace)))
  if tok ∈ PRONOUN_RAW ∧ form ≠ "" then some (tok, form) else none

/-- `normalize_pronoun`. -/
def normalize_pronoun (p : String) : String := if p = "Sie" then "Sie" else strLower p

/-- `looks_like_pronoun_line`. -/
def looks_like_pronoun_line (text : String) : Bool := (matchPronounLine text).isSome

/-- A slot map (the `current` dict): pronoun slot → surface form. -/
abbrev SlotMap : Type := List (String × String)

/-- `flush()`: retain the current map as a table iff it has at least 4
(necessarily distinct) filled slots. -/
def flushStep (tables : List SlotMap) (current : SlotMap) : List SlotMap :=
  if 4 ≤ current.length then tables ++ [current] else tables

/-- The `sie` ambiguity resolution (extractor lines 80-94): prefer the
`sie_sg` slot when it is free and the form looks third-person-singular
(equals the stored `er` form, or ends in `t`); otherwise fill `sie_pl`,
overwriting it if both slots are taken. -/
def sieAssign (current : SlotMap) (form : String) : SlotMap :=
  let er_form := strLower (strTrim ((alGet? current "er").getD ""))
  let form_low := strLower form
  if ¬ alHas current "sie_sg" = true ∧
      ((er_form ≠ "" ∧ form_low = er_form) ∨ strEndsWith form_low "t" = true) then
    alInsert current "sie_sg" form
  else if ¬ alHas current "sie_pl" = true then
    alInsert current "sie_pl" form
  else
    alInsert current "sie_pl" form

/-- One iteration of the extractor's scan loop over `(tables, current)`. -/
def stepLine (st : List SlotMap × SlotMap) (line : String) : List SlotMap × SlotMap :=
  match matchPronounLine line with
  | none => (flushStep st.1 st.2, [])
  | some pf =>
    let p := normalize_pronoun pf.1
    if p ≠ "sie" then (st.1, alInsert st.2 p pf.2)
    else (st.1, sieAssign st.2 pf.2)

/-- `tuple(sorted(t.items()))`: the exact-content signature used for in-call
deduplication. -/
def sortedItems (t : SlotMap) : List (String × String) := sortBy strPairLe t

/-- The `uniq`/`seen` loop at the end of `extract_tables_from_group`. -/
def dedupExactAux : List SlotMap → List (List (String × String)) → List SlotMap
  | [], _ => []
  | t :: rest, seen =>
    if sortedItems t ∈ seen then dedupExactAux rest seen
    else t :: dedupExactAux rest (sortedItems t :: seen)

/-- `extract_tables_from_group`: scan the lines, flush the pending cluster at
the end, deduplicate exact tables. -/
def extract_tables_from_group (lines : List String) : List SlotMap :=
  let st := lines.foldl stepLine ([], [])
  dedupExactAux (flushStep st.1 st.2) []

/-- `ordered_forms`: canonical slots first, leftover keys appended in their
original encounter order. -/
def ordered_forms (t : SlotMap) : SlotMap :=
  let first := PRONOUN_ORDER.foldl
    (fun out p =>
      match alGet? t p with
      | some v => out ++ [(p, v)]
      | none => out)
    []
  t.foldl (fun out kv => if alHas out kv.1 then out else out ++ [kv]) first

/-- `guess_lemma` (extractor lines 126-161). -/
def guess_lemma (t : SlotMap) : String :=
  let forms := (t.map (fun kv => strLower (strTrim kv.2))).filter (fun v => v ≠ "")
  if forms.any (fun f => f ∈ (["bin", "bist", "ist", "sind", "seid"] : List String)) then "sein"
  else if forms.any (fun f => f ∈ (["habe", "hast", "hat", "haben"] : List String)) then "haben"
  else if forms.any (fun f => f ∈ (["werde", "wirst", "wird", "werden"] : List String)) then
    "werden"
  else
    let wir := strTrim ((alGet? t "wir").getD "")
    if wir ≠ "" ∧ ¬ wir.data.contains ' ' = true then wir
    else
      let sieF := strTrim ((alGet? t "Sie").getD "")
      if sieF ≠ "" ∧ ¬ sieF.data.contains ' ' = true then sieF
      else
        let ich := strTrim ((alGet? t "ich").getD "")
        if ich ≠ "" then ich
        else
          match (t.map (fun kv => strTrim kv.2)).filter (fun v => v ≠ "") with
          | v :: _ => v
          | [] => ""

/-- `IRREGULAR_MARKERS`. -/
def IRREGULAR_MARKERS : List String :=
  ["bin", "bist", "ist", "sind", "seid",
   "habe", "hast", "hat", "haben",
   "werde", "wirst", "wird", "werden"]

/-- `detect_pattern` (extractor lines 164-193). -/
def detect_pattern (t : SlotMap) : String :=
  let forms := ((t.filter (fun kv => kv.2 ≠ "")).map (fun kv => strLower kv.2))
  if forms.any (fun f => f ∈ IRREGULAR_MARKERS) then "irregular"
  else
    let wir := strLower ((alGet? t "wir").getD "")
    let du := strLower ((alGet? t "du").getD "")
    let er := strLower ((alGet? t "er").getD "")
    if wir = "" then "unknown"
    else if du ≠ "" ∧ String.mk (du.data.take 4) ≠ String.mk (wir.data.take 4) then
      "stem_change"
    else if er ≠ "" ∧ String.mk (er.data.take 4) ≠ String.mk (wir.data.take 4) then
      "stem_change"
    else if ((du.data ++ er.data).any (fun c => c ∈ (['ä', 'ö', 'ü'] : List Char))) ∧
        ¬ (wir.data.any (fun c => c ∈ (['ä', 'ö', 'ü'] : List Char))) = true then
      "stem_change"
    else "regular"

/-- One output table of the extractor's `main` (its `source` dict is modelled
by the two fields it carries; the slide number is kept as the string it has
in the CSV, `int(slide)` being mere re-rendering). -/
structure OutTable where
  table_id : String
  lemma_guess : String
  pattern_guess : String
  forms : List (String × String)
  source_ppt : String
  source_slide : String
deriving DecidableEq

/-- The per-slide body of the extractor's `main` (lines 206-222): keep only
lines matching the pronoun pattern, skip the slide when fewer than 4 remain,
else extract and decorate each table. -/
def processSlide (ppt slide : String) (lines : List String) : List OutTable :=
  let pronoun_lines := lines.filter looks_like_pronoun_line
  if pronoun_lines.length < 4 then []
  else
    (extract_tables_from_group pronoun_lines).map
      (fun t =>
        ⟨ppt ++ "__slide" ++ slide, guess_lemma t, detect_pattern t,
          ordered_forms t, ppt, slide⟩)

/-! ### `tools/conjugation/dedupe_conjugation_tables.py` -/

/-- One provenance record `{"ppt": ..., "slide": ...}`; `none` models an
absent key (`s.get(...)`).  Integer slide values are represented by their
decimal rendering, which preserves equality of `(ppt, slide)` keys.
Provenance entries that are not mappings are skipped by every code path that
inspects them and are not modelled. -/
structure SourceRef where
  ppt : Option String
  slide : Option String
deriving DecidableEq

/-- The `(s.get("ppt"), s.get("slide"))` equality key. -/
def srcKey (s : SourceRef) : Option String × Option String := (s.ppt, s.slide)

/-- One table record of the conjugation-table document.  `sources = none`
models a `sources` key that is absent or not a list; `source = none` an
absent or non-mapping `source` key.  YAML `null` form values are read back as
`(v or "")` wherever used, so form values are plain strings here. -/
structure RawTable where
  table_id : String
  lemma_guess : Option String
  pattern_guess : Option String
  forms : List (String × String)
  source : Option SourceRef
  sources : Option (List SourceRef)
deriving DecidableEq

/-- `forms_signature`: sorted `(slot, stripped form)` pairs. -/
def forms_signature (forms : List (String × String)) : List (String × String) :=
  sortBy strPairLe (forms.map (fun kv => (kv.1, strTrim kv.2)))

/-- The full merge signature `(lemma, forms_signature(forms))`. -/
def sigOfTable (t : RawTable) : String × List (String × String) :=
  (strTrim (t.lemma_guess.getD ""), forms_signature t.forms)

/-- The `source`→`sources[]` normalization (deduplicator lines 28-36). -/
def normalizeSources (t : RawTable) : RawTable :=
  let srcs :=
    match t.sources with
    | some l => l
    | none =>
      match t.source with
      | some s => [s]
      | none => []
  { t with source := none, sources := some srcs }

/-- The provenance-union loop (deduplicator lines 44-53): append each new
provenance record whose `(ppt, slide)` key is not in `seen`. -/
def mergeSourcesAux : List SourceRef → List SourceRef → List (Option String × Option String) → List SourceRef
  | [], acc, _ => acc
  | s :: rest, acc, seen =>
    if srcKey s ∈ seen then mergeSourcesAux rest acc seen
    else mergeSourcesAux rest (acc ++ [s]) (srcKey s :: seen)

/-- Union the provenance of the surviving table with the duplicate's,
seeding `seen` with the keys already present. -/
def mergeSources (existing newSrcs : List SourceRef) : List SourceRef :=
  mergeSourcesAux newSrcs existing (existing.map srcKey)

/-- The in-place update of the surviving (first-seen) table: all metadata is
kept, only `sources` is extended. -/
def mergeInto (e : RawTable) (newSrcs : List SourceRef) : RawTable :=
  { e with sources := some (mergeSources (e.sources.getD []) newSrcs) }

/-- The merge signature type. -/
abbrev TableSig : Type := String × List (String × String)

/-- One iteration of the deduplicator's loop over the insertion-ordered
`merged` dict. -/
def dedupeStep (st : List (TableSig × RawTable)) (t : RawTable) : List (TableSig × RawTable) :=
  let sig := sigOfTable t
  let t' := normalizeSources t
  match alGet? st sig with
  | none => st ++ [(sig, t')]
  | some _ => alModify st sig (fun e => mergeInto e (t'.sources.getD []))

/-- The pure core of the deduplicator's `main`: `list(merged.values())`. -/
def dedupe_tables (ts : List RawTable) : List RawTable :=
  (ts.foldl dedupeStep []).map Prod.snd

/-! ### `tools/validate_ruleset_integrity.py` -/

/- Parsed YAML values.  Scalars are represented by their Python `str()`
rendering (non-string scalars only ever reach the code through `str(v)`).
Mappings keep key insertion order; keys reach the code through `str(k)` and
are kept as strings. -/
mutual
inductive Yaml : Type where
  | scalar (s : String)
  | nullV
  | arr (items : YamlSeq)
  | obj (fields : YamlObj)
inductive YamlSeq : Type where
  | nil
  | cons (v : Yaml) (rest : YamlSeq)
inductive YamlObj : Type where
  | nil
  | cons (k : String) (v : Yaml) (rest : YamlObj)
end

/-- Python `v is None`. -/
def yamlIsNull : Yaml → Bool
  | .nullV => true
  | _ => false

/- Python `str(v)`.  Scalars carry their rendering; container values (which
no well-formed reference field holds) are given a simple recursive rendering
whose exact shape no claim depends on. -/
mutual
def yamlToStr : Yaml → String
  | .scalar s => s
  | .nullV => "None"
  | .arr l => "[" ++ yamlSeqToStr l ++ "]"
  | .obj fs => "(" ++ yamlObjToStr fs ++ ")"
def yamlSeqToStr : YamlSeq → String
  | .nil => ""
  | .cons v rest => yamlToStr v ++ ", " ++ yamlSeqToStr rest
def yamlObjToStr : YamlObj → String
  | .nil => ""
  | .cons k v rest => k ++ ": " ++ yamlToStr v ++ ", " ++ yamlObjToStr rest
end

/- `find_lex_id_refs` (validator lines 53-71): collect `(field_path, str(v))`
for every key ending in `_lex_id` whose value is not null, walking mappings
and sequences and building dotted/indexed paths. -/
mutual
def find_lex_id_refs : Yaml → String → List (String × String)
  | .obj fs, path => findRefsObj fs path
  | .arr its, path => findRefsArr its 0 path
  | _, _ => []
def findRefsObj : YamlObj → String → List (String × String)
  | .nil, _ => []
  | .cons k v rest, path =>
    let subpath := if path = "" then k else path ++ "." ++ k
    (if strEndsWith k "_lex_id" = true ∧ ¬ yamlIsNull v = true then [(subpath, yamlToStr v)]
     else []) ++
      find_lex_id_refs v subpath ++ findRefsObj rest path
def findRefsArr : YamlSeq → Nat → String → List (String × String)
  | .nil, _, _ => []
  | .cons v rest, i, path =>
    find_lex_id_refs v (path ++ "[" ++ natRepr i ++ "]") ++ findRefsArr rest (i + 1) path
end

/-- `collect_lex_ids`: the set (duplicate-free list) of truthy `lex_id`
values of the index items.  An item's `lex_id` field is modelled by its
optional `str()` rendering, `none` for an absent key or a `None` value. -/
def collect_lex_ids (items : List (Option String)) : List String :=
  items.foldl
    (fun ids it =>
      match it with
      | some s => if s ≠ "" ∧ s ∉ ids then ids ++ [s] else ids
      | none => ids)
    []

/-- The scanning loop of the validator's `main` (lines 93-109): per document,
a parse failure counts one error; otherwise each reference that does not
resolve counts one error and is reported as `(document, field_path, value)`.
Returns the final error count and the reports. -/
def validateDocs (lexIds : List String) : List (String × Option Yaml) → Nat × List (String × String × String)
  | [] => (0, [])
  | (_, none) :: rest =>
    let r := validateDocs lexIds rest
    (r.1 + 1, r.2)
  | (p, some y) :: rest =>
    let unresolved := (find_lex_id_refs y "").filter (fun pr => pr.2 ∉ lexIds)
    let r := validateDocs lexIds rest
    (unresolved.length + r.1, unresolved.map (fun pr => (p, pr.1, pr.2)) ++ r.2)

/-- The validator's `main`: `index = none` models a missing index file
(exit 2); an index with no truthy `lex_id` entries exits 2; no scanned files
exits 0; otherwise exit 1 iff any error was counted.  Returned alongside the
exit code are the unresolved-reference reports. -/
def validator_main (index : Option (List (Option String))) (docs : List (String × Option Yaml)) :
    Nat × List (String × String × String) :=
  match index with
  | none => (2, [])
  | some items =>
    let lexIds := collect_lex_ids items
    if lexIds = [] then (2, [])
    else if docs.isEmpty then (0, [])
    else
      let r := validateDocs lexIds docs
      (if r.1 ≠ 0 then 1 else 0, r.2)

/-! ### Spec-mirror used to refute claim C2

The spec (§4.4) asserts that a non-ambiguous pronoun whose slot is already
filled starts a new cluster: flush, then begin a fresh map holding only the
new pair.  The code instead overwrites the slot in place.  The following
definitions transcribe the SPEC's words (not the source) and exist solely to
exhibit the difference on a concrete input. -/

/-- Step function following the spec's flush-on-refilled-slot rule for
non-ambiguous pronouns (everything else as in the code). -/
def stepLineSpecC2 (st : List SlotMap × SlotMap) (line : String) : List SlotMap × SlotMap :=
  match matchPronounLine line with
  | none => (flushStep st.1 st.2, [])
  | some pf =>
    let p := normalize_pronoun pf.1
    if p ≠ "sie" then
      if alHas st.2 p then (flushStep st.1 st.2, [(p, pf.2)])
      else (st.1, alInsert st.2 p pf.2)
    else (st.1, sieAssign st.2 pf.2)

/-- The extractor as claim C2 describes it (flush on refilled slot). -/
def extractSpecC2 (lines : List String) : List SlotMap :=
  let st := lines.foldl stepLineSpecC2 ([], [])
  dedupExactAux (flushStep st.1 st.2) []

/-! ### Auxiliary predicates used in the statements below -/

/-- A partition the Index Builder rejects: blank/absent category label, or an
`items` value that is not a list. -/
def malformedPartition (f : PartitionFile) : Prop :=
  strTrim (f.category.getD "") = "" ∨ f.items = none

instance (f : PartitionFile) : Decidable (malformedPartition f) := by
  unfold malformedPartition; infer_instance

/-- A table in the shape the deduplicator's normalization step leaves behind:
no legacy `source` key, and a `sources` list present. -/
def normalizedTable (t : RawTable) : Prop :=
  t.source = none ∧ t.sources.isSome = true

/-! ## Theorems -/

lemma alGet?_eq_none_iff {κ β : Type} [DecidableEq κ] :
    ∀ (m : List (κ × β)) (k : κ), alGet? m k = none ↔ k ∉ m.map Prod.fst
  | [], k => by simp [alGet?]
  | (k0, v0) :: rest, k => by
    simp only [alGet?, List.map_cons, List.mem_cons]
    by_cases h : k0 = k
    · subst h; simp
    · rw [if_neg h, alGet?_eq_none_iff rest k]
      constructor
      · rintro hn (rfl | hm)
        · exact h rfl
        · exact hn hm
      · intro hn hm
        exact hn (Or.inr hm)

lemma alHas_iff_mem {κ β : Type} [DecidableEq κ] (m : List (κ × β)) (k : κ) :
    alHas m k = true ↔ k ∈ m.map Prod.fst := by
  rw [alHas, Option.isSome_iff_ne_none, ne_eq, alGet?_eq_none_iff, not_not]

lemma alInsert_keys {κ β : Type} [DecidableEq κ] :
    ∀ (m : List (κ × β)) (k : κ) (v : β),
      (alInsert m k v).map Prod.fst =
        if k ∈ m.map Prod.fst then m.map Prod.fst else m.map Prod.fst ++ [k]
  | [], k, v => by simp [alInsert]
  | (k0, v0) :: rest, k, v => by
    have hcons : ((k0, v0) :: rest : List (κ × β)).map Prod.fst = k0 :: rest.map Prod.fst := rfl
    by_cases h : k0 = k
    · subst h
      simp [alInsert]
    · have hkk0 : ¬ k = k0 := fun e => h e.symm
      by_cases hm : k ∈ rest.map Prod.fst
      · rw [hcons, if_pos (List.mem_cons.mpr (Or.inr hm))]
        simp only [alInsert, if_neg h, List.map_cons]
        rw [alInsert_keys rest k v, if_pos hm]
      · rw [hcons, if_neg (by simp [hkk0, hm])]
        simp only [alInsert, if_neg h, List.map_cons]
        rw [alInsert_keys rest k v, if_neg hm]
        rfl

lemma alInsert_nodup_keys {κ β : Type} [DecidableEq κ] (m : List (κ × β)) (k : κ) (v : β)
    (h : (m.map Prod.fst).Nodup) : ((alInsert m k v).map Prod.fst).Nodup := by
  rw [alInsert_keys]
  by_cases hm : k ∈ m.map Prod.fst
  · simpa [hm] using h
  · simp [hm, List.nodup_append, h]

lemma alGet?_alInsert_self {κ β : Type} [DecidableEq κ] :
    ∀ (m : List (κ × β)) (k : κ) (v : β), alGet? (alInsert m k v) k = some v
  | [], k, v => by simp [alInsert, alGet?]
  | (k0, v0) :: rest, k, v => by
    by_cases h : k0 = k
    · subst h; simp [alInsert, alGet?]
    · simp [alInsert, alGet?, h, alGet?_alInsert_self rest k v]

lemma alInsert_length {κ β : Type} [DecidableEq κ] (m : List (κ × β)) (k : κ) (v : β) :
    (alInsert m k v).length = if k ∈ m.map Prod.fst then m.length else m.length + 1 := by
  have h := congrArg List.length (alInsert_keys m k v)
  simp only [List.length_map] at h
  rw [h]
  by_cases hm : k ∈ m.map Prod.fst <;> simp [hm]

lemma alModify_keys {κ β : Type} [DecidableEq κ] :
    ∀ (m : List (κ × β)) (k : κ) (f : β → β), (alModify m k f).map Prod.fst = m.map Prod.fst
  | [], _, _ => rfl
  | (k0, v0) :: rest, k, f => by
    by_cases h : k0 = k <;> simp [alModify, h, alModify_keys rest k f]

lemma mem_alModify {κ β : Type} [DecidableEq κ] :
    ∀ (m : List (κ × β)) (k : κ) (f : β → β) (e : κ × β),
      e ∈ alModify m k f → e ∈ m ∨ ∃ v, (k, v) ∈ m ∧ e = (k, f v)
  | [], _, _, _ => by simp [alModify]
  | (k0, v0) :: rest, k, f, e => by
    simp only [alModify]
    by_cases h : k0 = k
    · rw [if_pos h]
      intro he
      rcases List.mem_cons.mp he with rfl | hr
      · refine Or.inr ⟨v0, ?_, by rw [h]⟩
        rw [← h]
        exact List.mem_cons_self _ _
      · exact Or.inl (List.mem_cons_of_mem _ hr)
    · rw [if_neg h]
      intro he
      rcases List.mem_cons.mp he with rfl | hr
      · exact Or.inl (List.mem_cons_self _ _)
      · rcases mem_alModify rest k f e hr with h1 | ⟨v, hv, he2⟩
        · exact Or.inl (List.mem_cons_of_mem _ h1)
        · exact Or.inr ⟨v, List.mem_cons_of_mem _ hv, he2⟩

lemma strLower_ne_empty {s : String} (h : s ≠ "") : strLower s ≠ "" := by
  rcases s with ⟨l⟩
  cases l with
  | nil => exact absurd rfl h
  | cons c cs => simp [strLower, String.ext_iff]

/-- C1: the claim asserts that over any run of the Index Builder no two
entries of the built index share a `lex_id` — in particular, that the
assignment function never returns an identifier it has already returned in
the same run.  The code falsifies this: `ensure_unique_id` never records the
suffixed identifier it returns, so with the three entry texts `x`, `x 2`,
`x` (no pre-assigned identifiers at all) the run assigns `LEX.TIME.X.2`
twice, and the built index carries a duplicated `lex_id`. -/
theorem C1_duplicate_assignment :
    (mainBuild [⟨"numbers_time.yaml", some "time_numbers",
        some [⟨some "x", none⟩, ⟨some "x 2", none⟩, ⟨some "x", none⟩]⟩]).indexItems.map
        IndexEntry.lex_id = ["LEX.TIME.X", "LEX.TIME.X.2", "LEX.TIME.X.2"] ∧
    ¬ ((mainBuild [⟨"numbers_time.yaml", some "time_numbers",
        some [⟨some "x", none⟩, ⟨some "x 2", none⟩, ⟨some "x", none⟩]⟩]).indexItems.map
        IndexEntry.lex_id).Nodup := by
  constructor
  · decide
  · decide

/-- C9: `"die Schuhe"` for the noun category yields `LEX.NOUN.SCHUHE.DIE`
(article split off, core normalized, article segment appended); a second
distinct entry with the same text in the same run, with no previously
assigned identifiers, receives `LEX.NOUN.SCHUHE.DIE.2` — both for the bare
assignment function and through a whole Index Builder run. -/
theorem C9_schuhe_example :
    make_lex_id "noun" "die Schuhe" = "LEX.NOUN.SCHUHE.DIE" ∧
    (ensure_unique_id (make_lex_id "noun" "die Schuhe") (fun _ => 0)).1 =
      "LEX.NOUN.SCHUHE.DIE" ∧
    (ensure_unique_id (make_lex_id "noun" "die Schuhe")
        (ensure_unique_id (make_lex_id "noun" "die Schuhe") (fun _ => 0)).2).1 =
      "LEX.NOUN.SCHUHE.DIE.2" ∧
    (mainBuild [⟨"nouns.yaml", some "noun",
        some [⟨some "die Schuhe", none⟩, ⟨some "die Schuhe", none⟩]⟩]).indexItems.map
        IndexEntry.lex_id = ["LEX.NOUN.SCHUHE.DIE", "LEX.NOUN.SCHUHE.DIE.2"] := by
  refine ⟨by decide, by decide, by decide, by decide⟩

/-- C2 counterexample: the claim says a non-ambiguous pronoun hitting an
already-filled slot flushes the current map and starts a fresh one.  On
`["ich gehe", "du gehst", "er geht", "wir gehen", "ich spreche"]` the code
instead overwrites `ich` in place and returns a single table carrying
`"spreche"`, while the claimed behavior would retain the flushed table with
`"gehe"`; the two disagree. -/
theorem C2_counterexample :
    extract_tables_from_group ["ich gehe", "du gehst", "er geht", "wir gehen", "ich spreche"] =
      [[("ich", "spreche"), ("du", "gehst"), ("er", "geht"), ("wir", "gehen")]] ∧
    extractSpecC2 ["ich gehe", "du gehst", "er geht", "wir gehen", "ich spreche"] =
      [[("ich", "gehe"), ("du", "gehst"), ("er", "geht"), ("wir", "gehen")]] ∧
    extract_tables_from_group ["ich gehe", "du gehst", "er geht", "wir gehen", "ich spreche"] ≠
      extractSpecC2 ["ich gehe", "du gehst", "er geht", "wir gehen", "ich spreche"] := by
  refine ⟨by decide, by decide, by decide⟩

/-- C2 (amended): when a candidate line carries a non-ambiguous pronoun, the
slot is assigned in place — the accumulated tables are left untouched (no
flush, no fresh map), the slot now holds the new form, and when the slot was
already filled the map size does not change (pure overwrite). -/
theorem C2_amended_overwrite :
    ∀ (tables : List SlotMap) (current : SlotMap) (line : String) (pf : String × String),
      matchPronounLine line = some pf →
      normalize_pronoun pf.1 ≠ "sie" →
      stepLine (tables, current) line =
        (tables, alInsert current (normalize_pronoun pf.1) pf.2) ∧
      alGet? (alInsert current (normalize_pronoun pf.1) pf.2) (normalize_pronoun pf.1) =
        some pf.2 ∧
      (alHas current (normalize_pronoun pf.1) = true →
        (alInsert current (normalize_pronoun pf.1) pf.2).length = current.length) := by
  intro tables current line pf hm hp
  refine ⟨by simp [stepLine, hm, hp], alGet?_alInsert_self current _ pf.2, ?_⟩
  intro hh
  rw [alInsert_length, if_pos ((alHas_iff_mem current _).mp hh)]

/-- Witness for `C2_amended_overwrite` at the counterexample's own refill
step: slot `ich` is filled, the line `"ich spreche"` overwrites it. -/
theorem C2_amended_overwrite_witness :
    stepLine ([], [("ich", "gehe")]) "ich spreche" =
      ([], alInsert [("ich", "gehe")] (normalize_pronoun "ich") "spreche") ∧
    alGet? (alInsert [("ich", "gehe")] (normalize_pronoun "ich") "spreche")
        (normalize_pronoun "ich") = some "spreche" ∧
    (alInsert [("ich", "gehe")] (normalize_pronoun "ich") "spreche").length =
      ([("ich", "gehe")] : SlotMap).length := by
  have h := C2_amended_overwrite [] [("ich", "gehe")] "ich spreche" ("ich", "spreche")
    (by decide) (by decide)
  exact ⟨h.1, h.2.1, h.2.2 (by decide)⟩

/-- C3 counterexample: the claim says that on a malformed managed partition
the builder exits 2 with no partial output, "neither the index document nor
any partition file has been (re)written".  With a healthy nouns partition
followed by a verbs partition lacking its category label, the run exits 2
and does not write the index — but `nouns.yaml` has already been rewritten
(it received a fresh identifier) before the malformed file is reached. -/
theorem C3_counterexample :
    mainBuild [⟨"nouns.yaml", some "noun", some [⟨some "Katze", none⟩]⟩,
        ⟨"verbs.yaml", none, some []⟩] =
      ⟨2, ["nouns.yaml"], false, []⟩ ∧
    (mainBuild [⟨"nouns.yaml", some "noun", some [⟨some "Katze", none⟩]⟩,
        ⟨"verbs.yaml", none, some []⟩]).written ≠ [] := by
  refine ⟨by decide, by decide⟩

lemma buildLoop_malformed :
    ∀ (files : List PartitionFile) (used : UsedMap) (written : List String)
      (acc : List IndexEntry),
      (∃ f ∈ files, malformedPartition f) →
      (buildLoop files used written acc).exit = 2 ∧
        (buildLoop files used written acc).indexWritten = false
  | [], _, _, _ => by rintro ⟨f, hf, _⟩; exact absurd hf (List.not_mem_nil f)
  | f :: rest, used, written, acc => by
    rintro ⟨g, hg, hmal⟩
    by_cases hcat : strTrim (f.category.getD "") = ""
    · simp [buildLoop, hcat]
    · cases hits : f.items with
      | none => simp [buildLoop, hcat, hits]
      | some its =>
        have hgr : g ∈ rest := by
          rcases List.mem_cons.mp hg with rfl | h
          · rcases hmal with h1 | h2
            · exact absurd h1 hcat
            · rw [hits] at h2; exact absurd h2 (by simp)
          · exact h
        have := buildLoop_malformed rest
          (processFileItems (strTrim (f.category.getD "")) its used).2.1
          (if (processFileItems (strTrim (f.category.getD "")) its used).2.2 then
            written ++ [f.fname] else written)
          (acc ++ (processFileItems (strTrim (f.category.getD "")) its used).1)
          ⟨g, hgr, hmal⟩
        simpa [buildLoop, hcat, hits] using this

/-- C3 (amended): if any managed partition is malformed (blank category
label, or `items` not a sequence), the Index Builder exits with code 2 and
the index document is not written — but partition files processed before the
offending partition may already have been rewritten. -/
theorem C3_amended_fail_fast :
    ∀ (files : List PartitionFile),
      (∃ f ∈ files, malformedPartition f) →
      (mainBuild files).exit = 2 ∧ (mainBuild files).indexWritten = false := by
  intro files h
  have hne : files ≠ [] := by
    rintro rfl
    rcases h with ⟨f, hf, _⟩
    exact absurd hf (List.not_mem_nil f)
  unfold mainBuild
  rw [if_neg hne]
  exact buildLoop_malformed files _ [] [] h

/-- Witness for `C3_amended_fail_fast`: a single partition missing its
category label. -/
theorem C3_amended_fail_fast_witness :
    (mainBuild [⟨"verbs.yaml", none, some []⟩]).exit = 2 ∧
      (mainBuild [⟨"verbs.yaml", none, some []⟩]).indexWritten = false :=
  C3_amended_fail_fast [⟨"verbs.yaml", none, some []⟩]
    ⟨⟨"verbs.yaml", none, some []⟩, List.mem_singleton.mpr rfl, Or.inl (by decide)⟩

/-- C4: for any cluster state, a candidate line with the ambiguous pronoun
`sie` leaves the flushed tables untouched and resolves via the `sie`
heuristic; on a non-empty form this heuristic stores the form in `sie_sg`
exactly when that slot is free and the lowercased form equals the stored
`er` form or ends in `t`, and otherwise stores it in `sie_pl` (filling it or
overwriting it).  In particular `er spricht`, `sie spricht`, `sie sprechen`
resolve to `sie_sg = spricht`, `sie_pl = sprechen` for both orders of the
two `sie` lines. -/
theorem C4_sie_disambiguation :
    (∀ (tables : List SlotMap) (current : SlotMap) (line form : String),
      matchPronounLine line = some ("sie", form) →
      stepLine (tables, current) line = (tables, sieAssign current form)) ∧
    (∀ (current : SlotMap) (form : String), form ≠ "" →
      ((alHas current "sie_sg" = false ∧
          (strLower form = strLower (strTrim ((alGet? current "er").getD "")) ∨
            strEndsWith (strLower form) "t" = true) →
        sieAssign current form = alInsert current "sie_sg" form) ∧
       (alHas current "sie_sg" = true ∨
          (strLower form ≠ strLower (strTrim ((alGet? current "er").getD "")) ∧
            strEndsWith (strLower form) "t" = false) →
        sieAssign current form = alInsert current "sie_pl" form))) ∧
    (alGet? ((["er spricht", "sie spricht", "sie sprechen"].foldl stepLine ([], [])).2)
        "sie_sg" = some "spricht" ∧
      alGet? ((["er spricht", "sie spricht", "sie sprechen"].foldl stepLine ([], [])).2)
        "sie_pl" = some "sprechen") ∧
    (alGet? ((["er spricht", "sie sprechen", "sie spricht"].foldl stepLine ([], [])).2)
        "sie_sg" = some "spricht" ∧
      alGet? ((["er spricht", "sie sprechen", "sie spricht"].foldl stepLine ([], [])).2)
        "sie_pl" = some "sprechen") := by
  refine ⟨?_, ?_, by decide, by decide⟩
  · intro tables current line form hm
    have hs : normalize_pronoun "sie" = "sie" := by decide
    simp [stepLine, hm, hs]
  · intro current form hform
    constructor
    · rintro ⟨hsg, hor⟩
      have hcond : ¬ alHas current "sie_sg" = true ∧
          ((strLower (strTrim ((alGet? current "er").getD "")) ≠ "" ∧
              strLower form = strLower (strTrim ((alGet? current "er").getD ""))) ∨
            strEndsWith (strLower form) "t" = true) := by
        refine ⟨by simp [hsg], ?_⟩
        rcases hor with heq | hend
        · exact Or.inl ⟨by rw [← heq]; exact strLower_ne_empty hform, heq⟩
        · exact Or.inr hend
      rw [sieAssign, if_pos hcond]
    · intro hneg
      have hcond : ¬ (¬ alHas current "sie_sg" = true ∧
          ((strLower (strTrim ((alGet? current "er").getD "")) ≠ "" ∧
              strLower form = strLower (strTrim ((alGet? current "er").getD ""))) ∨
            strEndsWith (strLower form) "t" = true)) := by
        rcases hneg with hsg | ⟨hne, hend⟩
        · rintro ⟨hc, _⟩; exact hc hsg
        · rintro ⟨_, hor⟩
          rcases hor with ⟨_, heq⟩ | he
          · exact hne heq
          · rw [hend] at he; exact Bool.false_ne_true he
      rw [sieAssign, if_neg hcond]
      by_cases hpl : alHas current "sie_pl" = true
      · rw [if_neg (by simp [hpl])]
      · rw [if_pos (by simp [hpl])]

/-- Witness for `C4_sie_disambiguation`: the step on `"sie spricht"` over a
cluster holding `er ↦ spricht`, resolved into the `sie_sg` slot. -/
theorem C4_sie_disambiguation_witness :
    stepLine ([], [("er", "spricht")]) "sie spricht" =
      ([], sieAssign [("er", "spricht")] "spricht") ∧
    sieAssign [("er", "spricht")] "spricht" =
      alInsert [("er", "spricht")] "sie_sg" "spricht" ∧
    sieAssign [("er", "spricht"), ("sie_sg", "spricht")] "sprechen" =
      alInsert [("er", "spricht"), ("sie_sg", "spricht")] "sie_pl" "sprechen" := by
  have h := C4_sie_disambiguation
  refine ⟨h.1 [] [("er", "spricht")] "sie spricht" "spricht" (by decide), ?_, ?_⟩
  · exact (h.2.1 [("er", "spricht")] "spricht" (by decide)).1 (by decide)
  · exact (h.2.1 [("er", "spricht"), ("sie_sg", "spricht")] "sprechen" (by decide)).2
      (by decide)

/-- C10: the extractor's `main` filters each slide's lines down to the
pronoun-matching ones and skips slides with fewer than 4 of them; hence a
non-matching line sitting between two pronoun runs never reaches the
clustering function (removing it does not change the slide's output, so the
runs around it accumulate into a single slot map), and every line handed to
the clustering function matches the pronoun pattern. -/
theorem C10_filtered_clustering :
    ∀ (ppt slide : String) (lines : List String),
      ((lines.filter looks_like_pronoun_line).length < 4 →
        processSlide ppt slide lines = []) ∧
      (∀ (l1 l2 : List String) (b : String), looks_like_pronoun_line b = false →
        processSlide ppt slide (l1 ++ b :: l2) = processSlide ppt slide (l1 ++ l2)) ∧
      (∀ l ∈ lines.filter looks_like_pronoun_line, (matchPronounLine l).isSome = true) := by
  intro ppt slide lines
  refine ⟨?_, ?_, ?_⟩
  · intro h
    unfold processSlide
    rw [if_pos h]
  · intro l1 l2 b hb
    have hfil : (l1 ++ b :: l2).filter looks_like_pronoun_line =
        (l1 ++ l2).filter looks_like_pronoun_line := by
      simp [List.filter_append, List.filter_cons, hb]
    unfold processSlide
    rw [hfil]
  · intro l hl
    exact (List.mem_filter.mp hl).2

/-- Witness for `C10_filtered_clustering`: a slide with a single matching
line is skipped; dropping the non-matching line `"blah"` does not change the
output; `"ich gehe"` (a line surviving the filter) matches the pattern. -/
theorem C10_filtered_clustering_witness :
    processSlide "a" "1" ["ich gehe"] = [] ∧
    processSlide "a" "1" (["ich gehe", "du gehst", "er geht"] ++ "blah" :: ["wir gehen"]) =
      processSlide "a" "1" (["ich gehe", "du gehst", "er geht"] ++ ["wir gehen"]) ∧
    (matchPronounLine "ich gehe").isSome = true := by
  refine ⟨(C10_filtered_clustering "a" "1" ["ich gehe"]).1 (by decide), ?_, ?_⟩
  · exact (C10_filtered_clustering "a" "1" []).2.1 ["ich gehe", "du gehst", "er geht"]
      ["wir gehen"] "blah" (by decide)
  · exact (C10_filtered_clustering "a" "1" ["ich gehe"]).2.2 "ich gehe" (by decide)

lemma mem_flushStep {tables : List SlotMap} {cur : SlotMap} {t : SlotMap}
    (h : t ∈ flushStep tables cur) : t ∈ tables ∨ (t = cur ∧ 4 ≤ cur.length) := by
  unfold flushStep at h
  by_cases hc : 4 ≤ cur.length
  · rw [if_pos hc] at h
    rcases List.mem_append.mp h with h1 | h2
    · exact Or.inl h1
    · exact Or.inr ⟨List.mem_singleton.mp h2, hc⟩
  · rw [if_neg hc] at h
    exact Or.inl h

lemma sieAssign_nodup_keys {cur : SlotMap} (h : (cur.map Prod.fst).Nodup) (form : String) :
    ((sieAssign cur form).map Prod.fst).Nodup := by
  unfold sieAssign
  dsimp only
  split
  all_goals try split
  all_goals exact alInsert_nodup_keys _ _ _ h

lemma stepLine_inv (st : List SlotMap × SlotMap) (line : String)
    (h1 : ∀ t ∈ st.1, 4 ≤ t.length ∧ (t.map Prod.fst).Nodup)
    (h2 : (st.2.map Prod.fst).Nodup) :
    (∀ t ∈ (stepLine st line).1, 4 ≤ t.length ∧ (t.map Prod.fst).Nodup) ∧
      ((stepLine st line).2.map Prod.fst).Nodup := by
  unfold stepLine
  cases hm : matchPronounLine line with
  | none =>
    dsimp only
    refine ⟨?_, by simp⟩
    intro t ht
    rcases mem_flushStep ht with hold | ⟨rfl, hlen⟩
    · exact h1 t hold
    · exact ⟨hlen, h2⟩
  | some pf =>
    dsimp only
    by_cases hp : normalize_pronoun pf.1 ≠ "sie"
    · rw [if_pos hp]
      exact ⟨h1, alInsert_nodup_keys _ _ _ h2⟩
    · rw [if_neg hp]
      exact ⟨h1, sieAssign_nodup_keys h2 pf.2⟩

lemma foldl_stepLine_inv :
    ∀ (lines : List String) (st : List SlotMap × SlotMap),
      (∀ t ∈ st.1, 4 ≤ t.length ∧ (t.map Prod.fst).Nodup) →
      (st.2.map Prod.fst).Nodup →
      (∀ t ∈ (lines.foldl stepLine st).1, 4 ≤ t.length ∧ (t.map Prod.fst).Nodup) ∧
        ((lines.foldl stepLine st).2.map Prod.fst).Nodup
  | [], st, h1, h2 => ⟨h1, h2⟩
  | l :: rest, st, h1, h2 => by
    have hstep := stepLine_inv st l h1 h2
    exact foldl_stepLine_inv rest (stepLine st l) hstep.1 hstep.2

lemma mem_dedupExactAux :
    ∀ (ts : List SlotMap) (seen : List (List (String × String))) (t : SlotMap),
      t ∈ dedupExactAux ts seen → t ∈ ts
  | [], _, t => by simp [dedupExactAux]
  | t0 :: rest, seen, t => by
    unfold dedupExactAux
    by_cases hc : sortedItems t0 ∈ seen
    · rw [if_pos hc]
      intro h
      exact List.mem_cons_of_mem _ (mem_dedupExactAux rest seen t h)
    · rw [if_neg hc]
      intro h
      rcases List.mem_cons.mp h with rfl | hr
      · exact List.mem_cons_self _ _
      · exact List.mem_cons_of_mem _ (mem_dedupExactAux rest _ t hr)

lemma extract_mem_ok {lines : List String} {t : SlotMap}
    (h : t ∈ extract_tables_from_group lines) :
    4 ≤ t.length ∧ (t.map Prod.fst).Nodup := by
  unfold extract_tables_from_group at h
  have h2 := mem_dedupExactAux _ _ _ h
  have hfold := foldl_stepLine_inv lines ([], []) (by simp) (by simp)
  rcases mem_flushStep h2 with hold | ⟨rfl, hlen⟩
  · exact hfold.1 t hold
  · exact ⟨hlen, hfold.2⟩

lemma ordered_first_keys :
    ∀ (ps : List String) (t : SlotMap) (out : SlotMap),
      (out.map Prod.fst).Nodup → ps.Nodup → (∀ p ∈ ps, p ∉ out.map Prod.fst) →
      (((ps.foldl
          (fun out p =>
            match alGet? t p with
            | some v => out ++ [(p, v)]
            | none => out)
          out).map Prod.fst).Nodup ∧
        ∀ x ∈ out.map Prod.fst,
          x ∈ (ps.foldl
            (fun out p =>
              match alGet? t p with
              | some v => out ++ [(p, v)]
              | none => out)
            out).map Prod.fst)
  | [], t, out, h1, _, _ => ⟨h1, fun x hx => hx⟩
  | p :: rest, t, out, h1, h2, h3 => by
    simp only [List.foldl_cons]
    cases hg : alGet? t p with
    | none =>
      exact ordered_first_keys rest t out h1 (List.Nodup.of_cons h2)
        (fun q hq => h3 q (List.mem_cons_of_mem _ hq))
    | some v =>
      have hout1 : ((out ++ [(p, v)]).map Prod.fst).Nodup := by
        simp only [List.map_append, List.map_cons, List.map_nil]
        rw [List.nodup_append]
        exact ⟨h1, List.nodup_singleton p,
          by intro a ha hb; rw [List.mem_singleton.mp hb] at ha
             exact h3 p (List.mem_cons_self _ _) ha⟩
      have hout3 : ∀ q ∈ rest, q ∉ (out ++ [(p, v)]).map Prod.fst := by
        intro q hq hmem
        simp only [List.map_append, List.map_cons, List.map_nil, List.mem_append,
          List.mem_singleton] at hmem
        rcases hmem with hq1 | rfl
        · exact h3 q (List.mem_cons_of_mem _ hq) hq1
        · exact (List.nodup_cons.mp h2).1 hq
      have := ordered_first_keys rest t (out ++ [(p, v)]) hout1 (List.Nodup.of_cons h2) hout3
      refine ⟨this.1, fun x hx => this.2 x ?_⟩
      simp only [List.map_append, List.mem_append]
      exact Or.inl hx

lemma ordered_second_keys :
    ∀ (l : List (String × String)) (out : SlotMap),
      (out.map Prod.fst).Nodup →
      (((l.foldl (fun out kv => if alHas out kv.1 then out else out ++ [kv]) out).map
          Prod.fst).Nodup ∧
        (∀ x ∈ out.map Prod.fst,
          x ∈ (l.foldl (fun out kv => if alHas out kv.1 then out else out ++ [kv]) out).map
            Prod.fst) ∧
        ∀ kv ∈ l,
          kv.1 ∈ (l.foldl (fun out kv => if alHas out kv.1 then out else out ++ [kv]) out).map
            Prod.fst)
  | [], out, h1 => ⟨h1, fun x hx => hx, by simp⟩
  | kv :: rest, out, h1 => by
    simp only [List.foldl_cons]
    by_cases hh : alHas out kv.1 = true
    · rw [if_pos hh]
      have := ordered_second_keys rest out h1
      refine ⟨this.1, this.2.1, ?_⟩
      intro kw hkw
      rcases List.mem_cons.mp hkw with rfl | hr
      · exact this.2.1 kw.1 ((alHas_iff_mem out kw.1).mp hh)
      · exact this.2.2 kw hr
    · rw [if_neg hh]
      have hout1 : ((out ++ [kv]).map Prod.fst).Nodup := by
        simp only [List.map_append, List.map_cons, List.map_nil]
        rw [List.nodup_append]
        refine ⟨h1, List.nodup_singleton _, ?_⟩
        intro a ha hb
        rw [List.mem_singleton.mp hb] at ha
        exact hh ((alHas_iff_mem out kv.1).mpr ha)
      have := ordered_second_keys rest (out ++ [kv]) hout1
      have hmono : ∀ x ∈ out.map Prod.fst, x ∈ (out ++ [kv]).map Prod.fst := by
        intro x hx
        simp only [List.map_append, List.mem_append]
        exact Or.inl hx
      refine ⟨this.1, fun x hx => this.2.1 x (hmono x hx), ?_⟩
      intro kw hkw
      rcases List.mem_cons.mp hkw with rfl | hr
      · refine this.2.1 kw.1 ?_
        simp [List.map_append]
      · exact this.2.2 kw hr

lemma ordered_forms_keys (t : SlotMap) :
    ((ordered_forms t).map Prod.fst).Nodup ∧
      ∀ kv ∈ t, kv.1 ∈ (ordered_forms t).map Prod.fst := by
  unfold ordered_forms
  have hfirst := ordered_first_keys PRONOUN_ORDER t [] (by simp) (by decide) (by simp)
  have hsecond := ordered_second_keys t _ hfirst.1
  exact ⟨hsecond.1, hsecond.2.2⟩

lemma ordered_forms_card {t : SlotMap} (h : (t.map Prod.fst).Nodup) :
    t.length ≤ ((ordered_forms t).map Prod.fst).toFinset.card := by
  have hk := ordered_forms_keys t
  have hsub : (t.map Prod.fst).toFinset ⊆ ((ordered_forms t).map Prod.fst).toFinset := by
    intro x hx
    rw [List.mem_toFinset] at hx ⊢
    rcases List.mem_map.mp hx with ⟨kv, hkv, rfl⟩
    exact hk.2 kv hkv
  calc t.length = (t.map Prod.fst).length := (List.length_map _ _).symm
    _ = (t.map Prod.fst).toFinset.card := (List.toFinset_card_of_nodup h).symm
    _ ≤ ((ordered_forms t).map Prod.fst).toFinset.card := Finset.card_le_card hsub

/-- C5: every table retained by the extractor has at least 4 distinct filled
pronoun slots, both as a raw cluster returned by
`extract_tables_from_group` and as the `forms` of an output table of the
per-slide pipeline; no smaller cluster is ever retained. -/
theorem C5_min_slot_invariant :
    ∀ (lines : List String),
      (∀ t ∈ extract_tables_from_group lines, 4 ≤ (t.map Prod.fst).toFinset.card) ∧
      ∀ (ppt slide : String) (ot : OutTable), ot ∈ processSlide ppt slide lines →
        4 ≤ (ot.forms.map Prod.fst).toFinset.card := by
  intro lines
  constructor
  · intro t ht
    have h := extract_mem_ok ht
    rw [List.toFinset_card_of_nodup h.2, List.length_map]
    exact h.1
  · intro ppt slide ot hot
    unfold processSlide at hot
    by_cases hlen : (lines.filter looks_like_pronoun_line).length < 4
    · rw [if_pos hlen] at hot
      exact absurd hot (List.not_mem_nil ot)
    · rw [if_neg hlen] at hot
      rcases List.mem_map.mp hot with ⟨t, ht, rfl⟩
      have h := extract_mem_ok ht
      exact le_trans h.1 (ordered_forms_card h.2)

/-- Witness for `C5_min_slot_invariant` on a concrete four-line slide. -/
theorem C5_min_slot_invariant_witness :
    4 ≤ (([("ich", "gehe"), ("du", "gehst"), ("er", "geht"), ("wir", "gehen")] :
        SlotMap).map Prod.fst).toFinset.card := by
  have h := (C5_min_slot_invariant ["ich gehe", "du gehst", "er geht", "wir gehen"]).1
  exact h [("ich", "gehe"), ("du", "gehst"), ("er", "geht"), ("wir", "gehen")] (by decide)

lemma mergeSourcesAux_spec :
    ∀ (ns acc : List SourceRef) (seen : List (Option String × Option String)),
      ∃ app, mergeSourcesAux ns acc seen = acc ++ app ∧
        (∀ s ∈ app, srcKey s ∉ seen) ∧ (app.map srcKey).Nodup ∧ ∀ s ∈ app, s ∈ ns
  | [], acc, seen => ⟨[], by simp [mergeSourcesAux], by simp, by simp, by simp⟩
  | s :: rest, acc, seen => by
    unfold mergeSourcesAux
    by_cases hc : srcKey s ∈ seen
    · rw [if_pos hc]
      obtain ⟨app, h1, h2, h3, h4⟩ := mergeSourcesAux_spec rest acc seen
      exact ⟨app, h1, h2, h3, fun x hx => List.mem_cons_of_mem _ (h4 x hx)⟩
    · rw [if_neg hc]
      obtain ⟨app, h1, h2, h3, h4⟩ := mergeSourcesAux_spec rest (acc ++ [s]) (srcKey s :: seen)
      refine ⟨s :: app, ?_, ?_, ?_, ?_⟩
      · rw [h1, List.append_assoc]
        rfl
      · intro x hx
        rcases List.mem_cons.mp hx with rfl | hr
        · exact hc
        · exact fun hmem => h2 x hr (List.mem_cons_of_mem _ hmem)
      · rw [List.map_cons, List.nodup_cons]
        refine ⟨?_, h3⟩
        intro hmem
        rcases List.mem_map.mp hmem with ⟨y, hy, hkey⟩
        exact h2 y hy (by rw [hkey]; exact List.mem_cons_self _ _)
      · intro x hx
        rcases List.mem_cons.mp hx with rfl | hr
        · exact List.mem_cons_self _ _
        · exact List.mem_cons_of_mem _ (h4 x hr)

/-- C8: merging a duplicate table into the stored first-seen table (which is
what `dedupeStep` does when the signatures coincide) keeps the first-seen
table's `table_id` and all other metadata, and extends its `sources` only by
provenance records whose `(ppt, slide)` key is not already present — with no
duplicates among the appended records either, for any overlap of the two
provenance sets. -/
theorem C8_merge_provenance :
    ∀ (st : List (TableSig × RawTable)) (t : RawTable) (e0 : RawTable),
      (alGet? st (sigOfTable t) = some e0 →
        dedupeStep st t =
          alModify st (sigOfTable t)
            (fun e => mergeInto e ((normalizeSources t).sources.getD []))) ∧
      ∀ (e : RawTable) (newSrcs : List SourceRef),
        (mergeInto e newSrcs).table_id = e.table_id ∧
        (mergeInto e newSrcs).lemma_guess = e.lemma_guess ∧
        (mergeInto e newSrcs).pattern_guess = e.pattern_guess ∧
        (mergeInto e newSrcs).forms = e.forms ∧
        ∃ app, (mergeInto e newSrcs).sources = some (e.sources.getD [] ++ app) ∧
          (∀ s ∈ app, srcKey s ∉ (e.sources.getD []).map srcKey) ∧
          (app.map srcKey).Nodup ∧ ∀ s ∈ app, s ∈ newSrcs := by
  intro st t e0
  constructor
  · intro hget
    unfold dedupeStep
    dsimp only
    rw [hget]
  · intro e ns
    refine ⟨rfl, rfl, rfl, rfl, ?_⟩
    obtain ⟨app, h1, h2, h3, h4⟩ :=
      mergeSourcesAux_spec ns (e.sources.getD []) ((e.sources.getD []).map srcKey)
    exact ⟨app, by simp only [mergeInto, mergeSources, h1], h2, h3, h4⟩

/-- Witness for `C8_merge_provenance`: a signature hit on a stored table. -/
theorem C8_merge_provenance_witness :
    dedupeStep [((("gehen" : String), ([] : List (String × String))),
        (⟨"t1", some "gehen", some "regular", [], none, some []⟩ : RawTable))]
      ⟨"t2", some "gehen", some "regular", [], none, some [⟨some "a", some "1"⟩]⟩ =
      alModify [((("gehen" : String), ([] : List (String × String))),
        (⟨"t1", some "gehen", some "regular", [], none, some []⟩ : RawTable))]
        (sigOfTable ⟨"t2", some "gehen", some "regular", [], none,
          some [⟨some "a", some "1"⟩]⟩)
        (fun e => mergeInto e
          ((normalizeSources ⟨"t2", some "gehen", some "regular", [], none,
            some [⟨some "a", some "1"⟩]⟩).sources.getD [])) := by
  have h := (C8_merge_provenance
    [((("gehen" : String), ([] : List (String × String))),
      (⟨"t1", some "gehen", some "regular", [], none, some []⟩ : RawTable))]
    ⟨"t2", some "gehen", some "regular", [], none, some [⟨some "a", some "1"⟩]⟩
    ⟨"t1", some "gehen", some "regular", [], none, some []⟩).1
  exact h (by decide)

lemma validateDocs_resolved_of_zero :
    ∀ (L : List String) (docs : List (String × Option Yaml)),
      (validateDocs L docs).1 = 0 →
      ∀ (p : String) (y : Yaml), (p, some y) ∈ docs →
        ∀ pr ∈ find_lex_id_refs y "", pr.2 ∈ L
  | _, [] => by
    intro _ p y hmem
    exact absurd hmem (List.not_mem_nil _)
  | L, (p0, oy) :: rest => by
    intro hz p y hmem pr hpr
    cases oy with
    | none =>
      simp only [validateDocs] at hz
      omega
    | some y0 =>
      simp only [validateDocs] at hz
      have hz1 : ((find_lex_id_refs y0 "").filter (fun pr => pr.2 ∉ L)).length = 0 ∧
          (validateDocs L rest).1 = 0 := by omega
      rcases List.mem_cons.mp hmem with heq | hr
      · have hy : y = y0 := by
          have := (Prod.mk.injEq _ _ _ _).mp heq
          exact Option.some.inj this.2
        subst hy
        by_contra hnot
        have hmemf : pr ∈ (find_lex_id_refs y "").filter (fun pr => pr.2 ∉ L) := by
          rw [List.mem_filter]
          exact ⟨hpr, by simpa using hnot⟩
        rw [List.length_eq_zero.mp hz1.1] at hmemf
        exact absurd hmemf (List.not_mem_nil pr)
      · exact validateDocs_resolved_of_zero L rest hz1.2 p y hr pr hpr

lemma validateDocs_unresolved_reported :
    ∀ (L : List String) (docs : List (String × Option Yaml)) (p : String) (y : Yaml)
      (pr : String × String),
      (p, some y) ∈ docs → pr ∈ find_lex_id_refs y "" → pr.2 ∉ L →
      (p, pr.1, pr.2) ∈ (validateDocs L docs).2 ∧ 1 ≤ (validateDocs L docs).1
  | _, [], p, y, pr => by
    intro hmem
    exact absurd hmem (List.not_mem_nil _)
  | L, (p0, oy) :: rest, p, y, pr => by
    intro hmem hpr hnot
    rcases List.mem_cons.mp hmem with heq | hr
    · have hp : p = p0 := ((Prod.mk.injEq _ _ _ _).mp heq).1
      have hy : oy = some y := (((Prod.mk.injEq _ _ _ _).mp heq).2).symm
      subst hp
      subst hy
      simp only [validateDocs]
      have hmemf : pr ∈ (find_lex_id_refs y "").filter (fun pr => pr.2 ∉ L) := by
        rw [List.mem_filter]
        exact ⟨hpr, by simpa using hnot⟩
      constructor
      · apply List.mem_append_left
        exact List.mem_map.mpr ⟨pr, hmemf, rfl⟩
      · have : 1 ≤ ((find_lex_id_refs y "").filter (fun pr => pr.2 ∉ L)).length :=
          List.length_pos.mpr (List.ne_nil_of_mem hmemf)
        omega
    · have ih := validateDocs_unresolved_reported L rest p y pr hr hpr hnot
      cases oy with
      | none =>
        simp only [validateDocs]
        exact ⟨ih.1, by omega⟩
      | some y0 =>
        simp only [validateDocs]
        exact ⟨List.mem_append_right _ ih.1, by omega⟩

/-- C6: (a) whenever the validator exits 0, every `*_lex_id` field with a
non-null value in every successfully parsed scanned document resolves to a
collected `lex_id`; (b) whenever the loaded index yields a non-empty
identifier set and at least one such field does not resolve, the validator
exits 1 and reports every unresolved reference together with its structural
path and its containing document. -/
theorem C6_referential_closure :
    ∀ (items : List (Option String)) (docs : List (String × Option Yaml)),
      ((validator_main (some items) docs).1 = 0 →
        ∀ (p : String) (y : Yaml), (p, some y) ∈ docs →
          ∀ pr ∈ find_lex_id_refs y "", pr.2 ∈ collect_lex_ids items) ∧
      (collect_lex_ids items ≠ [] →
        ∀ (p : String) (y : Yaml) (pr : String × String),
          (p, some y) ∈ docs → pr ∈ find_lex_id_refs y "" →
          pr.2 ∉ collect_lex_ids items →
          (validator_main (some items) docs).1 = 1 ∧
            (p, pr.1, pr.2) ∈ (validator_main (some items) docs).2) := by
  intro items docs
  constructor
  · intro hexit p y hmem pr hpr
    unfold validator_main at hexit
    dsimp only at hexit
    by_cases hids : collect_lex_ids items = []
    · rw [if_pos hids] at hexit
      exact absurd hexit (by omega)
    · rw [if_neg hids] at hexit
      by_cases hdocs : docs.isEmpty = true
      · rw [List.isEmpty_iff.mp hdocs] at hmem
        exact absurd hmem (List.not_mem_nil _)
      · rw [if_neg hdocs] at hexit
        have hz : (validateDocs (collect_lex_ids items) docs).1 = 0 := by
          by_cases h0 : (validateDocs (collect_lex_ids items) docs).1 ≠ 0
          · rw [if_pos h0] at hexit; omega
          · omega
        exact validateDocs_resolved_of_zero (collect_lex_ids items) docs hz p y hmem pr hpr
  · intro hids p y pr hmem hpr hnot
    have hdocs : docs.isEmpty = false := by
      cases docs with
      | nil => exact absurd hmem (List.not_mem_nil _)
      | cons d rest => rfl
    have hrep := validateDocs_unresolved_reported (collect_lex_ids items) docs p y pr
      hmem hpr hnot
    unfold validator_main
    dsimp only
    rw [if_neg hids, hdocs]
    constructor
    · simp only [Bool.false_eq_true, if_false]
      rw [if_pos (by omega)]
    · exact hrep.1

/-- Witness for `C6_referential_closure`: one rule document with an
unresolved `verb_lex_id` reference against a one-entry index. -/
theorem C6_referential_closure_witness :
    (validator_main (some [some "LEX.VERB.GEHEN"])
        [("g.yaml", some (.obj (.cons "verb_lex_id" (.scalar "LEX.VERB.MISSING") .nil)))]).1 =
      1 ∧
    ("g.yaml", "verb_lex_id", "LEX.VERB.MISSING") ∈
      (validator_main (some [some "LEX.VERB.GEHEN"])
        [("g.yaml", some (.obj (.cons "verb_lex_id" (.scalar "LEX.VERB.MISSING") .nil)))]).2 := by
  have h := (C6_referential_closure [some "LEX.VERB.GEHEN"]
    [("g.yaml", some (.obj (.cons "verb_lex_id" (.scalar "LEX.VERB.MISSING") .nil)))]).2
  exact h (by decide) "g.yaml" (.obj (.cons "verb_lex_id" (.scalar "LEX.VERB.MISSING") .nil))
    ("verb_lex_id", "LEX.VERB.MISSING") (List.mem_singleton.mpr rfl) (by decide) (by decide)

lemma sigOfTable_normalizeSources (t : RawTable) :
    sigOfTable (normalizeSources t) = sigOfTable t := by
  rcases t with ⟨id, lg, pg, fo, so, ss⟩
  cases ss <;> cases so <;> rfl

lemma normalizedTable_normalizeSources (t : RawTable) :
    normalizedTable (normalizeSources t) := by
  rcases t with ⟨id, lg, pg, fo, so, ss⟩
  cases ss <;> cases so <;> exact ⟨rfl, rfl⟩

lemma normalizeSources_eq_self {t : RawTable} (h : normalizedTable t) :
    normalizeSources t = t := by
  rcases t with ⟨id, lg, pg, fo, so, ss⟩
  obtain ⟨h1, h2⟩ := h
  cases ss with
  | none => exact absurd h2 (by simp)
  | some l =>
    cases so with
    | none => rfl
    | some s => exact absurd h1 (by simp)

lemma sigOfTable_mergeInto (e : RawTable) (ns : List SourceRef) :
    sigOfTable (mergeInto e ns) = sigOfTable e := by
  rcases e with ⟨id, lg, pg, fo, so, ss⟩
  rfl

lemma dedupeStep_inv (st : List (TableSig × RawTable)) (t : RawTable)
    (h1 : ∀ e ∈ st, e.1 = sigOfTable e.2 ∧ normalizedTable e.2)
    (h2 : (st.map Prod.fst).Nodup) :
    (∀ e ∈ dedupeStep st t, e.1 = sigOfTable e.2 ∧ normalizedTable e.2) ∧
      ((dedupeStep st t).map Prod.fst).Nodup := by
  unfold dedupeStep
  dsimp only
  cases hg : alGet? st (sigOfTable t) with
  | none =>
    constructor
    · intro e he
      rcases List.mem_append.mp he with hold | hnew
      · exact h1 e hold
      · rw [List.mem_singleton.mp hnew]
        exact ⟨(sigOfTable_normalizeSources t).symm, normalizedTable_normalizeSources t⟩
    · rw [List.map_append]
      simp only [List.map_cons, List.map_nil]
      rw [List.nodup_append]
      refine ⟨h2, List.nodup_singleton _, ?_⟩
      intro a ha hb
      rw [List.mem_singleton.mp hb] at ha
      exact (alGet?_eq_none_iff st (sigOfTable t)).mp hg ha
  | some e0 =>
    constructor
    · intro e he
      rcases mem_alModify st (sigOfTable t) _ e he with hold | ⟨v, hv, heq⟩
      · exact h1 e hold
      · subst heq
        have hv2 := h1 (sigOfTable t, v) hv
        refine ⟨?_, hv2.2.1, rfl⟩
        show sigOfTable t = sigOfTable (mergeInto v _)
        rw [sigOfTable_mergeInto]
        exact hv2.1
    · rw [alModify_keys]
      exact h2

lemma foldl_dedupeStep_inv :
    ∀ (ts : List RawTable) (st : List (TableSig × RawTable)),
      (∀ e ∈ st, e.1 = sigOfTable e.2 ∧ normalizedTable e.2) →
      (st.map Prod.fst).Nodup →
      (∀ e ∈ ts.foldl dedupeStep st, e.1 = sigOfTable e.2 ∧ normalizedTable e.2) ∧
        ((ts.foldl dedupeStep st).map Prod.fst).Nodup
  | [], st, h1, h2 => ⟨h1, h2⟩
  | t :: rest, st, h1, h2 => by
    have hstep := dedupeStep_inv st t h1 h2
    exact foldl_dedupeStep_inv rest (dedupeStep st t) hstep.1 hstep.2

lemma dedupe_pass2 :
    ∀ (ts : List RawTable) (st : List (TableSig × RawTable)),
      (∀ t ∈ ts, normalizedTable t) →
      (st.map Prod.fst ++ ts.map sigOfTable).Nodup →
      ts.foldl dedupeStep st = st ++ ts.map (fun t => (sigOfTable t, t))
  | [], st, _, _ => by simp
  | t :: rest, st, hn, hd => by
    simp only [List.foldl_cons, List.map_cons]
    have hnotmem : sigOfTable t ∉ st.map Prod.fst := by
      rw [List.map_cons, List.nodup_append] at hd
      exact fun hmem => (hd.2.2 hmem) (List.mem_cons_self _ _)
    have hget : alGet? st (sigOfTable t) = none := (alGet?_eq_none_iff st _).mpr hnotmem
    have hstep : dedupeStep st t = st ++ [(sigOfTable t, t)] := by
      unfold dedupeStep
      dsimp only
      rw [hget]
      dsimp only
      rw [normalizeSources_eq_self (hn t (List.mem_cons_self _ _))]
    rw [hstep]
    have hd2 : ((st ++ [(sigOfTable t, t)]).map Prod.fst ++ rest.map sigOfTable).Nodup := by
      rw [List.map_append]
      simp only [List.map_cons, List.map_nil]
      rw [List.append_assoc]
      rw [List.map_cons] at hd
      simpa using hd
    rw [dedupe_pass2 rest (st ++ [(sigOfTable t, t)])
      (fun x hx => hn x (List.mem_cons_of_mem _ hx)) hd2]
    rw [List.append_assoc]
    rfl

/-- C7: the Table Deduplicator/Merger is idempotent — running the
merge-by-signature reduction twice returns exactly the output of running it
once (same tables, same order, same merged sources). -/
theorem C7_dedupe_idempotent :
    ∀ (ts : List RawTable), dedupe_tables (dedupe_tables ts) = dedupe_tables ts := by
  intro ts
  have hinv := foldl_dedupeStep_inv ts [] (by simp) (by simp)
  have hn : ∀ t ∈ (ts.foldl dedupeStep []).map Prod.snd, normalizedTable t := by
    intro t ht
    rcases List.mem_map.mp ht with ⟨e, he, rfl⟩
    exact (hinv.1 e he).2
  have hsig : ((ts.foldl dedupeStep []).map Prod.snd).map sigOfTable =
      (ts.foldl dedupeStep []).map Prod.fst := by
    rw [List.map_map]
    exact List.map_congr_left (fun e he => ((hinv.1 e he).1).symm)
  have hd : (([] : List (TableSig × RawTable)).map Prod.fst ++
      ((ts.foldl dedupeStep []).map Prod.snd).map sigOfTable).Nodup := by
    simp only [List.map_nil, List.nil_append]
    rw [hsig]
    exact hinv.2
  have hp := dedupe_pass2 ((ts.foldl dedupeStep []).map Prod.snd) [] hn hd
  show dedupe_tables ((ts.foldl dedupeStep []).map Prod.snd) =
    (ts.foldl dedupeStep []).map Prod.snd
  unfold dedupe_tables
  rw [hp]
  simp [List.map_map, Function.comp]

end Wortschatz
